import Mathlib

/-!
Verification of the EPUB simplified-to-traditional batch conversion route
(`src/app/api/convert/route.ts` of the repository) against its design
specification.

The route is a Next.js POST handler.  Its core is a batch archive
transcoding pipeline:

* parse the multipart form data, collect the `file` blobs; reject an empty
  batch with a 400 error;
* for each uploaded archive (concurrently): load it with JSZip, enumerate
  `Object.keys(zip.files)`, and for each entry (concurrently) either create
  a folder (directories), convert text content (entries whose lowercased
  extension is in `['htm','html','xhtml','ncx','opf']`, with a literal
  `<dc:language>` patch for `opf`), or copy bytes verbatim; entry names are
  rewritten by `opencc.simplifiedToTaiwan`;
* serialize each output archive, add it to an outer zip under
  `<converted base name>-converted.epub`, and return the serialized outer
  zip; any thrown error is caught by a single catch-all that answers with a
  generic 500 error.

Embedding choices:

* JavaScript strings are embedded as `List Char` (`Str`) and byte buffers as
  `List Nat` (`Bytes`).  JavaScript string operations used by the route
  (`split`, `pop`, `toLowerCase`, `replace` with a string pattern, the
  `/\.epub$/i` regex replace) are defined below, faithful to their JS
  semantics on the inputs the route uses (ASCII case mapping; the
  `replace` pattern of the route is a fixed non-empty ASCII literal).
* The external collaborators the spec places out of scope — the OpenCC
  conversion function, text decoding/encoding, the ZIP parser and the ZIP
  serializer — are abstract function parameters, gathered in `Collab`.
  The archive codec is modelled at its interface: an input archive parses
  to its list of entries in enumeration order, and an output archive is an
  association list built by JSZip's `file`/`folder` calls (adding under an
  existing name replaces that entry in place, otherwise appends; `folder`
  forces a trailing slash).
* Concurrency (`Promise.all` over entries and over archives) is embedded by
  explicit completion orders: inside one archive every directory callback
  runs its `folder` call synchronously, in enumeration order, before any
  file callback resumes from its first `await`, and the file callbacks then
  finish in an arbitrary permutation `readOrder` of the file entries;
  across archives the `outerZip.file` calls happen in an arbitrary
  permutation `sigma` of the input indices.
* Errors are embedded with `Except`: an error result carries no output
  bytes, matching the route, where a thrown error skips the
  `generateAsync` calls and answers with a JSON error body instead.
-/

namespace EpubConvert

/-- JavaScript strings, embedded as lists of characters. -/
abbrev Str := List Char

/-- Raw byte buffers (`Buffer` / `Uint8Array` contents), embedded as lists
of naturals. -/
abbrev Bytes := List Nat

/-- JavaScript `String.prototype.toLowerCase`, at the ASCII case mapping the
route's extension and suffix tests rely on. -/
def toLowerL (s : Str) : Str := s.map Char.toLower

/-- JavaScript `String.prototype.split` with a single-character separator:
`splitChar c s` is the list of separator-free segments of `s`, empty
segments included, and is never empty (`''.split('.')` is `['']`). -/
def splitChar (c : Char) : Str → List Str
  | [] => [[]]
  | x :: xs =>
      match splitChar c xs with
      | [] => [[]]
      | h :: t => if x = c then [] :: h :: t else (x :: h) :: t

/-- JavaScript `String.prototype.includes` for a pattern string:
does `pat` occur as a contiguous substring? -/
def hasSubstr (pat : Str) : Str → Bool
  | [] => pat.isEmpty
  | c :: cs => pat.isPrefixOf (c :: cs) || hasSubstr pat cs

/-- JavaScript `String.prototype.replace` with a string pattern: replace the
first occurrence of `pat` (the route's pattern is a fixed non-empty
literal) by `rep`, and return the string unchanged when `pat` does not
occur. -/
def replaceFirst (pat rep : Str) : Str → Str
  | [] => []
  | c :: cs =>
      if pat.isPrefixOf (c :: cs) then rep ++ (c :: cs).drop pat.length
      else c :: replaceFirst pat rep cs

/-- The route's fixed lookup table
`const targetExtensions = ['htm', 'html', 'xhtml', 'ncx', 'opf']`. -/
def targetExtensions : List Str :=
  ["htm".data, "html".data, "xhtml".data, "ncx".data, "opf".data]

/-- The route's extension computation
`(filename.split('.').pop() as string).toLowerCase()`. -/
def extOf (filename : Str) : Str :=
  toLowerL ((splitChar '.' filename).getLastD [])

/-- The classification of one archive entry (spec §3). -/
inductive EntryClassification
  | Directory
  | TextTarget
  | BinaryPassthrough
deriving Repr, DecidableEq

/-- The entry classifier: the branching of the route's entry loop — the
`zipEntry.dir` test, then membership of `extOf` in `targetExtensions`. -/
def classify (path : Str) (isDirectory : Bool) : EntryClassification :=
  if isDirectory then .Directory
  else if targetExtensions.contains (extOf path) then .TextTarget
  else .BinaryPassthrough

/-- The literal search pattern of the route's `.opf` patch. -/
def zhCNtag : Str := "<dc:language>zh-CN</dc:language>".data

/-- The literal replacement of the route's `.opf` patch. -/
def zhTWtag : Str := "<dc:language>zh-TW</dc:language>".data

/-- The metadata patch step: the route's
`if (ext === 'opf') tcContent = tcContent.replace('<dc:language>zh-CN</dc:language>', '<dc:language>zh-TW</dc:language>')`. -/
def patchMetadata (convertedText : Str) (ext : Str) : Str :=
  if ext = "opf".data then replaceFirst zhCNtag zhTWtag convertedText
  else convertedText

/-- One member of a loaded archive: a JSZip entry — its key in `zip.files`
(the path), its `dir` flag, and its raw content bytes (empty for
directories). -/
structure ZEntry where
  path : Str
  isDir : Bool
  content : Bytes
deriving Repr, DecidableEq

/-- The content of one entry of an output archive: a folder marker (JSZip
`folder`) or content bytes (JSZip `file`; text contents appear here through
the abstract encoder). -/
inductive OutContent
  | dirMarker
  | bytes (b : Bytes)
deriving Repr, DecidableEq

/-- An output archive under construction: JSZip's `files` object, an
association list in insertion order (JavaScript objects enumerate string
keys in insertion order, and `generateAsync` writes entries in that
order). -/
abbrev OutZip := List (Str × OutContent)

/-- JSZip `zip.file(name, data)` / the assignment `files[name] = entry`:
replace in place when the key is already present, append otherwise. -/
def upsert {α : Type} (z : List (Str × α)) (k : Str) (v : α) : List (Str × α) :=
  if (z.map Prod.fst).contains k then
    z.map fun p => if p.1 = k then (k, v) else p
  else z ++ [(k, v)]

/-- JSZip's `forceTrailingSlash`, applied by `folder`: append `'/'` unless
the name already ends with it. -/
def forceSlash (s : Str) : Str :=
  if s.getLast? = some '/' then s else s ++ ['/']

/-- The external collaborators of the pipeline (spec §1 "out of scope,
treated as external collaborators"), as abstract functions:
`conv` is `opencc.simplifiedToTaiwan` (used for both names and contents),
`decode`/`encode` are the text codec behind `zipEntry.async('text')` and
`outputZip.file(name, string)` (decoding a buffer can fail), `parseZip` is
`JSZip.loadAsync` (yielding the entries of `Object.keys(zip.files)` in
enumeration order, or failing on an invalid container), and `serialize` is
`generateAsync` with DEFLATE compression. -/
structure Collab where
  conv : Str → Str
  decode : Bytes → Option Str
  encode : Str → Bytes
  parseZip : Bytes → Option (List ZEntry)
  serialize : OutZip → Bytes

/-- The body of the route's entry callback for a non-directory entry:
compute `newFilename` and the extension, read as text and convert (with the
`opf` metadata patch) when the extension is a target, copy bytes verbatim
otherwise.  An error carries the offending entry's original path (the
rejection of that entry's `async`/conversion promise). -/
def processFile (C : Collab) (e : ZEntry) : Except Str (Str × OutContent) :=
  let newFilename := C.conv e.path
  let ext := extOf e.path
  if targetExtensions.contains ext then
    match C.decode e.content with
    | none => .error e.path
    | some content => .ok (newFilename, .bytes (C.encode (patchMetadata (C.conv content) ext)))
  else .ok (newFilename, .bytes e.content)

/-- The synchronous first phase of `Promise.all(fileNames.map(...))`: each
callback runs up to its first `await` in enumeration order, so every
directory callback performs its `outputZip.folder(newFilename)` call before
any file callback touches `outputZip`. -/
def addDirs (C : Collab) (entries : List ZEntry) : OutZip :=
  entries.foldl
    (fun z e => if e.isDir then upsert z (forceSlash (C.conv e.path)) .dirMarker else z) []

/-- The second phase: the suspended file callbacks resume in completion
order (`readOrder`), each performing its `outputZip.file` call, the first
rejection failing the whole `Promise.all`. -/
def transcodeFiles (C : Collab) : List ZEntry → OutZip → Except Str OutZip
  | [], z => .ok z
  | e :: rest, z =>
      match processFile C e with
      | .error p => .error p
      | .ok (n, c) => transcodeFiles C rest (upsert z n c)

/-- The single-archive transcoder (spec §4.5): the route's per-archive body
between `JSZip.loadAsync` and `generateAsync`, for entry list `entries` (in
enumeration order) and file-read completion order `readOrder` (a
permutation of the non-directory entries). -/
def transcode (C : Collab) (entries readOrder : List ZEntry) : Except Str OutZip :=
  transcodeFiles C readOrder (addDirs C entries)

/-- One uploaded file: display name and raw bytes. -/
structure InputFile where
  name : Str
  data : Bytes
deriving Repr, DecidableEq

/-- The route's `uploadedFile.name.replace(/\.epub$/i, '')`: strip one
case-insensitive `.epub` suffix. -/
def stripEpubSuffix (s : Str) : Str :=
  if ".epub".data.isSuffixOf (toLowerL s) then s.take (s.length - 5) else s

/-- The route's output archive name:
``` `${opencc.simplifiedToTaiwan(originalBaseName)}-converted.epub` ```. -/
def outName (C : Collab) (displayName : Str) : Str :=
  C.conv (stripEpubSuffix displayName) ++ "-converted.epub".data

/-- One uploaded archive's whole callback: load (`ArchiveError` when the
container does not parse), transcode every entry, serialize, and name the
result.  `readOrder` is that archive's file-read completion order. -/
def processArchive (C : Collab) (f : InputFile) (readOrder : List ZEntry) :
    Except Str (Str × Bytes) :=
  match C.parseZip f.data with
  | none => .error f.name
  | some entries =>
      match transcode C entries readOrder with
      | .error p => .error p
      | .ok z => .ok (outName C f.name, C.serialize z)

/-- The route's two error responses: `{error: 'No file uploaded.'}` with
status 400, and the catch-all `{error: 'An error occurred during
conversion.'}` with status 500.  An error response carries no bundle
bytes. -/
inductive ApiError
  | noFile
  | conversionError
deriving Repr, DecidableEq

/-- `Promise.all(uploadedFiles.map(...))`: the archive callbacks finish in
completion order `sigma` (a permutation of the input indices), each adding
its serialized output to the outer zip; the first rejection fails the
batch.  `entOrder i` is the file-read completion order inside archive
`i`. -/
def batchGo (C : Collab) (inputs : List InputFile) (entOrder : Nat → List ZEntry) :
    List Nat → List (Str × Bytes) → Except Str (List (Str × Bytes))
  | [], acc => .ok acc
  | i :: rest, acc =>
      match inputs[i]? with
      | none => batchGo C inputs entOrder rest acc
      | some f =>
          match processArchive C f (entOrder i) with
          | .error p => .error p
          | .ok (n, b) => batchGo C inputs entOrder rest (upsert acc n b)

/-- The POST handler on the `file` blobs of the form data: reject an empty
batch (400), otherwise run all archive callbacks and either return the
outer bundle's entries (serialized by `C.serialize` in the route's final
`generateAsync`) or answer with the generic catch-all error (500). -/
def POST (C : Collab) (inputs : List InputFile) (sigma : List Nat)
    (entOrder : Nat → List ZEntry) : Except ApiError (List (Str × Bytes)) :=
  if inputs.length = 0 then .error .noFile
  else
    match batchGo C inputs entOrder sigma [] with
    | .ok bundle => .ok bundle
    | .error _ => .error .conversionError

/-- The request as the front end builds it (`page.tsx`, `handleSubmit`):
the `file` blobs plus a `conversionMode` form field. -/
structure ConvertRequest where
  files : List InputFile
  conversionMode : Str

/-- The handler on a full request: the route reads only
`formData.getAll('file')`. -/
def handlePOST (C : Collab) (r : ConvertRequest) (sigma : List Nat)
    (entOrder : Nat → List ZEntry) : Except ApiError (List (Str × Bytes)) :=
  POST C r.files sigma entOrder

example : extOf "OEBPS/ch1.HTML".data = "html".data := by decide
example : extOf "ncx".data = "ncx".data := by decide
example : classify "ncx".data false = .TextTarget := by decide
example : classify "cover.jpg".data false = .BinaryPassthrough := by decide
example : replaceFirst "ab".data "X".data "zabab".data = "zXab".data := by decide
example : hasSubstr "ab".data "zab".data = true := by decide

/-! ### Lemmas about `replaceFirst` and `hasSubstr` -/

lemma replaceFirst_of_not_hasSubstr (pat rep : Str) :
    ∀ t : Str, hasSubstr pat t = false → replaceFirst pat rep t = t
  | [], _ => rfl
  | c :: cs, h => by
      simp only [hasSubstr, Bool.or_eq_false_iff] at h
      simp only [replaceFirst, h.1, Bool.false_eq_true, if_false]
      rw [replaceFirst_of_not_hasSubstr pat rep cs h.2]

lemma replaceFirst_decomp (pat rep : Str) (hp : pat ≠ []) :
    ∀ t : Str, hasSubstr pat t = true →
      ∃ b a, t = b ++ pat ++ a ∧ replaceFirst pat rep t = b ++ rep ++ a
  | [], h => by
      simp only [hasSubstr, List.isEmpty_iff] at h
      exact absurd h hp
  | c :: cs, h => by
      by_cases hpre : pat.isPrefixOf (c :: cs) = true
      · obtain ⟨a, ha⟩ := List.isPrefixOf_iff_prefix.mp hpre
        refine ⟨[], a, by simp [← ha], ?_⟩
        simp only [replaceFirst, hpre, if_true, List.nil_append]
        rw [← ha, List.drop_left]
      · have hcs : hasSubstr pat cs = true := by
          simp only [hasSubstr, Bool.or_eq_true] at h
          exact h.resolve_left hpre
        obtain ⟨b, a, h1, h2⟩ := replaceFirst_decomp pat rep hp cs hcs
        refine ⟨c :: b, a, by simp [h1], ?_⟩
        simp only [replaceFirst, hpre, Bool.false_eq_true, if_false, h2, List.cons_append]

lemma hasSubstr_mid (pat : Str) (hp : pat ≠ []) :
    ∀ b a : Str, hasSubstr pat (b ++ pat ++ a) = true
  | [], a => by
      match pat, hp with
      | p :: ps, _ =>
          simp only [List.nil_append, List.cons_append, hasSubstr, Bool.or_eq_true]
          left
          exact List.isPrefixOf_iff_prefix.mpr ⟨a, by simp⟩
  | x :: b, a => by
      simp only [List.cons_append, hasSubstr, Bool.or_eq_true]
      right
      exact hasSubstr_mid pat hp b a

/-- C3.  The metadata patch is applied only to `opf` entries; on a text
containing the literal `<dc:language>zh-CN</dc:language>` it substitutes
`<dc:language>zh-TW</dc:language>` for (the first occurrence of) that
substring and differs nowhere else from the input; on a text without that
substring it returns the input byte for byte. -/
theorem c3_metadata_patch (t ext : Str) :
    (ext ≠ "opf".data → patchMetadata t ext = t) ∧
    (hasSubstr zhCNtag t = false → patchMetadata t "opf".data = t) ∧
    (hasSubstr zhCNtag t = true →
      ∃ b a, t = b ++ zhCNtag ++ a ∧ patchMetadata t "opf".data = b ++ zhTWtag ++ a ∧
        hasSubstr zhTWtag (patchMetadata t "opf".data) = true) := by
  refine ⟨fun hne => by simp [patchMetadata, hne], fun habs => ?_, fun hocc => ?_⟩
  · simp only [patchMetadata, if_pos rfl]
    exact replaceFirst_of_not_hasSubstr _ _ t habs
  · obtain ⟨b, a, h1, h2⟩ :=
      replaceFirst_decomp zhCNtag zhTWtag (by decide) t hocc
    have hpm : patchMetadata t "opf".data = b ++ zhTWtag ++ a := by
      simpa only [patchMetadata, if_pos rfl] using h2
    exact ⟨b, a, h1, hpm, by rw [hpm]; exact hasSubstr_mid zhTWtag (by decide) b a⟩

/-- Witness for C3 at concrete inputs: a non-`opf` extension leaves the
text alone, an `opf` text without the tag is returned byte-identical, and
an `opf` text with the tag is rewritten to the `zh-TW` tag with identical
surroundings. -/
theorem c3_metadata_patch_witness :
    patchMetadata "<x/>".data "ncx".data = "<x/>".data ∧
    patchMetadata "<x/>".data "opf".data = "<x/>".data ∧
    (∃ b a, "A<dc:language>zh-CN</dc:language>B".data = b ++ zhCNtag ++ a ∧
      patchMetadata "A<dc:language>zh-CN</dc:language>B".data "opf".data = b ++ zhTWtag ++ a ∧
      hasSubstr zhTWtag
        (patchMetadata "A<dc:language>zh-CN</dc:language>B".data "opf".data) = true) :=
  ⟨(c3_metadata_patch "<x/>".data "ncx".data).1 (by decide),
   (c3_metadata_patch "<x/>".data "opf".data).2.1 (by decide),
   (c3_metadata_patch "A<dc:language>zh-CN</dc:language>B".data "opf".data).2.2 (by decide)⟩

/-! ### Lemmas about `splitChar` and the extension computation -/

lemma splitChar_ne_nil (c : Char) (l : Str) : splitChar c l ≠ [] := by
  cases l with
  | nil => simp [splitChar]
  | cons x xs =>
      simp only [splitChar]
      cases splitChar c xs with
      | nil => simp
      | cons h t => by_cases hx : x = c <;> simp [hx]

lemma splitChar_of_not_mem (c : Char) : ∀ l : Str, c ∉ l → splitChar c l = [l]
  | [], _ => rfl
  | x :: xs, h => by
      have hx : ¬x = c := fun he => h (he ▸ List.mem_cons_self x xs)
      have hxs : c ∉ xs := fun hm => h (List.mem_cons_of_mem x hm)
      simp only [splitChar, splitChar_of_not_mem c xs hxs, hx, if_false]

lemma splitChar_cons_eq (c x : Char) (xs : Str) (h : Str) (t : List Str)
    (hE : splitChar c xs = h :: t) :
    splitChar c (x :: xs) = if x = c then [] :: h :: t else (x :: h) :: t := by
  rw [splitChar, hE]

lemma splitChar_eq_singleton (c : Char) :
    ∀ (l h : Str), splitChar c l = [h] → c ∉ l ∧ h = l
  | [], h, he => by
      simp only [splitChar, List.cons.injEq] at he
      simp [← he.1]
  | x :: xs, h, he => by
      rcases hE : splitChar c xs with _ | ⟨h', t'⟩
      · exact absurd hE (splitChar_ne_nil c xs)
      · rw [splitChar_cons_eq c x xs h' t' hE] at he
        by_cases hx : x = c
        · rw [if_pos hx] at he
          exact absurd he (by simp)
        · rw [if_neg hx] at he
          obtain ⟨he1, he2⟩ := List.cons.injEq .. |>.mp he
          obtain ⟨hc, hh⟩ := splitChar_eq_singleton c xs h' (he2 ▸ hE)
          refine ⟨fun hm => ?_, by rw [← he1, hh]⟩
          rcases List.mem_cons.mp hm with hm | hm
          · exact hx hm.symm
          · exact hc hm

lemma takeWhile_append_cons (p : Char → Bool) (x : Char) (hx : p x = false) :
    ∀ l r : Str, (l ++ x :: r).takeWhile p = l.takeWhile p
  | [], r => by simp [List.takeWhile_cons, hx]
  | a :: l, r => by
      by_cases ha : p a
      · simp [List.takeWhile_cons, ha, takeWhile_append_cons p x hx l r]
      · simp [List.takeWhile_cons, ha]

lemma takeWhile_of_all (p : Char → Bool) :
    ∀ l : Str, (∀ a ∈ l, p a = true) → l.takeWhile p = l
  | [], _ => rfl
  | a :: l, h => by
      simp only [List.takeWhile_cons, h a (List.mem_cons_self a l), if_true]
      rw [takeWhile_of_all p l fun b hb => h b (List.mem_cons_of_mem a hb)]

lemma takeWhile_append_of_mem (p : Char → Bool) (c : Char) (hc : p c = false) :
    ∀ l r : Str, c ∈ l → (l ++ r).takeWhile p = l.takeWhile p
  | a :: l, r, hm => by
      by_cases ha : p a
      · have hal : c ∈ l := by
          rcases List.mem_cons.mp hm with rfl | h
          · rw [ha] at hc; cases hc
          · exact h
        simp [List.takeWhile_cons, ha, takeWhile_append_of_mem p c hc l r hal]
      · simp [List.takeWhile_cons, ha]

/-- The extension as the specification words it (amended for the dotless
case): the characters after the last `'.'`, or the whole path when it
contains none. -/
def lastDotSegment (s : Str) : Str :=
  (s.reverse.takeWhile fun a => a != '.').reverse

lemma splitChar_getLastD (c : Char) :
    ∀ l : Str, (splitChar c l).getLastD [] = (l.reverse.takeWhile fun a => a != c).reverse
  | [] => rfl
  | x :: xs => by
      have ih := splitChar_getLastD c xs
      rcases hE : splitChar c xs with _ | ⟨h, t⟩
      · exact absurd hE (splitChar_ne_nil c xs)
      · rw [hE] at ih
        by_cases hx : x = c
        · subst hx
          rw [splitChar_cons_eq x x xs h t hE, if_pos rfl,
            List.getLastD_cons [] [] (h :: t), ih,
            List.reverse_cons, takeWhile_append_cons _ x (by simp) xs.reverse []]
        · rw [splitChar_cons_eq c x xs h t hE, if_neg hx]
          rcases t with _ | ⟨y, t'⟩
          · obtain ⟨hc, hh⟩ := splitChar_eq_singleton c xs h hE
            have hall : ∀ a ∈ xs.reverse ++ [x], (a != c) = true := by
              intro a ha
              rcases List.mem_append.mp ha with ha | ha
              · exact bne_iff_ne.mpr fun he => hc (he ▸ List.mem_reverse.mp ha)
              · rw [List.mem_singleton.mp ha]; exact bne_iff_ne.mpr hx
            rw [List.getLastD_cons, List.getLastD_nil, List.reverse_cons,
              takeWhile_of_all _ _ hall, List.reverse_append, List.reverse_reverse]
            simp [hh]
          · have hcxs : c ∈ xs := by
              by_contra hc
              rw [splitChar_of_not_mem c xs hc] at hE
              exact absurd hE.symm (by simp)
            rw [List.getLastD_cons, List.getLastD_cons] at ih
            rw [List.getLastD_cons, List.getLastD_cons, ih, List.reverse_cons,
              takeWhile_append_of_mem _ c (by simp) xs.reverse [x] (List.mem_reverse.mpr hcxs)]

lemma extOf_eq_lastDotSegment (filename : Str) :
    extOf filename = toLowerL (lastDotSegment filename) := by
  unfold extOf lastDotSegment
  rw [splitChar_getLastD]

lemma extOf_append_dot (p m : Str) (hm : ∀ a ∈ m, (a != '.') = true) :
    extOf (p ++ '.' :: m) = toLowerL m := by
  rw [extOf_eq_lastDotSegment]
  unfold lastDotSegment
  rw [List.reverse_append, List.reverse_cons, List.append_assoc, List.singleton_append,
    takeWhile_append_cons _ '.' (by simp) m.reverse (p.reverse),
    takeWhile_of_all _ m.reverse (fun a ha => hm a (List.mem_reverse.mp ha)),
    List.reverse_reverse]

/-- C2, counterexample.  The claim classifies every dotless path as
`BinaryPassthrough`, but `'ncx'` contains no `'.'` and the route's
`split('.').pop()` then yields the whole path, which is a member of the
target set, so the entry is classified `TextTarget`. -/
theorem c2_counterexample :
    '.' ∉ "ncx".data ∧ classify "ncx".data false = .TextTarget ∧
      EntryClassification.TextTarget ≠ .BinaryPassthrough :=
  ⟨by decide, by decide, by decide⟩

/-- C2, amended.  Classification is: `Directory` when the flag is set;
otherwise take the substring after the last `'.'` of the path — or, when
the path contains no `'.'`, the whole path — lowercase it, and classify
`TextTarget` exactly when the result is in `{htm, html, xhtml, ncx, opf}`,
`BinaryPassthrough` otherwise.  Matching is case-insensitive: a path ending
in `.HTML` classifies identically to one ending in `.html`. -/
theorem c2_classify_amended (path : Str) (isDirectory : Bool) :
    classify path isDirectory =
      (if isDirectory then .Directory
       else if targetExtensions.contains (toLowerL (lastDotSegment path)) then .TextTarget
       else .BinaryPassthrough) ∧
    classify (path ++ ".HTML".data) isDirectory = classify (path ++ ".html".data) isDirectory := by
  constructor
  · simp only [classify, extOf_eq_lastDotSegment]
  · have h1 : extOf (path ++ ".HTML".data) = "html".data := by
      have : ".HTML".data = '.' :: "HTML".data := rfl
      rw [this, extOf_append_dot path "HTML".data (by decide)]
      decide
    have h2 : extOf (path ++ ".html".data) = "html".data := by
      have : ".html".data = '.' :: "html".data := rfl
      rw [this, extOf_append_dot path "html".data (by decide)]
      decide
    simp only [classify, h1, h2]

/-- C8.  The route rejects an empty batch up front: with zero `file` blobs
it answers `{error: 'No file uploaded.'}` with status 400 (the model's
`ApiError.noFile`, the dedicated empty-batch error, distinct from the
conversion error) before any archive is touched, and the error result
carries no output bytes. -/
theorem c8_empty_batch (C : Collab) (sigma : List Nat) (entOrder : Nat → List ZEntry) :
    POST C [] sigma entOrder = .error .noFile := rfl

/-- C10.  The produced bundle is independent of the `conversionMode` form
field: the route reads only `formData.getAll('file')`, so two requests with
the same `file` blobs and different `conversionMode` values get identical
responses — the direction is fixed to simplified-to-traditional. -/
theorem c10_conversion_mode_ignored (C : Collab) (files : List InputFile) (m₁ m₂ : Str)
    (sigma : List Nat) (entOrder : Nat → List ZEntry) :
    handlePOST C ⟨files, m₁⟩ sigma entOrder = handlePOST C ⟨files, m₂⟩ sigma entOrder := rfl

/-- C9, counterexample.  An input whose container does not parse (the
claim's `ArchiveError` situation) and an input whose `opf` entry fails to
decode as text (the claim's `EntryError` situation) produce the *same*
error result, the route's single catch-all 500 response, which carries no
failure kind and no offending entry path. -/
theorem c9_counterexample :
    POST ⟨fun s => s, fun _ => some [], fun _ => [], fun _ => none, fun _ => []⟩
        [⟨"a.epub".data, [0]⟩] [0] (fun _ => []) = .error .conversionError ∧
    POST ⟨fun s => s, fun _ => none, fun _ => [],
          fun _ => some [⟨"x.opf".data, false, [7]⟩], fun _ => []⟩
        [⟨"a.epub".data, [0]⟩] [0] (fun _ => [⟨"x.opf".data, false, [7]⟩])
      = .error .conversionError :=
  ⟨rfl, rfl⟩

/-- C9, amended.  The route does not distinguish failure kinds: its only
responses are the bundle, the empty-batch error, and the one generic
conversion error (`500, 'An error occurred during conversion.'`), which
carries no offending entry path. -/
theorem c9_error_collapse_amended (C : Collab) (inputs : List InputFile) (sigma : List Nat)
    (entOrder : Nat → List ZEntry) :
    (∃ b, POST C inputs sigma entOrder = .ok b) ∨
      POST C inputs sigma entOrder = .error .noFile ∨
      POST C inputs sigma entOrder = .error .conversionError := by
  unfold POST
  split
  · exact .inr (.inl rfl)
  · cases hb : batchGo C inputs entOrder sigma [] with
    | ok bundle => exact .inl ⟨bundle, rfl⟩
    | error e => exact .inr (.inr rfl)

/-- C6, counterexample.  The claim appends the input's original extension,
but the route appends the fixed literal `-converted.epub`: an upload named
`book.zip` (with the identity conversion) is bundled as
`book.zip-converted.epub`, not `book.zip-converted.zip`. -/
theorem c6_counterexample :
    outName ⟨fun s => s, fun _ => some [], fun _ => [], fun _ => none, fun _ => []⟩
        "book.zip".data = "book.zip-converted.epub".data ∧
      "book.zip-converted.epub".data ≠ "book.zip-converted.zip".data :=
  ⟨rfl, by decide⟩

/-- C7, counterexample.  Two failures of the claim at concrete inputs.
First, with two valid input archives supplied as `[a.epub, b.epub]` but
completing in the order `b` before `a`, the outer bundle's entries appear
as `[b-converted.epub, a-converted.epub]` — the completion order, not the
supply order.  Second, two uploads that share the display name `a.epub`
(both computing the bundle name `a-converted.epub`): the second
`outerZip.file` call replaces the first entry, so two inputs collapse to a
one-entry bundle — there is not even one bundle entry per input archive
unless the converted output names are pairwise distinct. -/
theorem c7_counterexample :
    POST ⟨fun s => s, fun _ => some [], fun _ => [], fun _ => some [], fun _ => []⟩
        [⟨"a.epub".data, [0]⟩, ⟨"b.epub".data, [1]⟩] [1, 0] (fun _ => [])
      = .ok [("b-converted.epub".data, []), ("a-converted.epub".data, [])] ∧
    [("b-converted.epub".data, ([] : Bytes)), ("a-converted.epub".data, [])]
      ≠ [("a-converted.epub".data, []), ("b-converted.epub".data, [])] ∧
    POST ⟨fun s => s, fun _ => some [], fun _ => [], fun _ => some [], fun _ => []⟩
        [⟨"a.epub".data, [0]⟩, ⟨"a.epub".data, [1]⟩] [0, 1] (fun _ => [])
      = .ok [("a-converted.epub".data, [])] ∧
    ([("a-converted.epub".data, ([] : Bytes))] : List (Str × Bytes)).length ≠ 2 :=
  ⟨rfl, by decide, rfl, by decide⟩

/-- C1, counterexample.  Two failures of the claim at concrete inputs.
First, two distinct entry paths whose converted names coincide (a constant
conversion; the real OpenCC mapping also identifies distinct inputs, e.g.
`后` and `後`): the second `outputZip.file` call replaces the first entry,
so a 2-entry archive yields a 1-entry output.  Second, a file entry
enumerated before a directory entry: the directory's `folder` call runs
synchronously before the file's read resolves, so the output order is
`[b/, a.txt]` although the enumeration order was `[a.txt, b/]`. -/
theorem c1_counterexample :
    transcode ⟨fun _ => "x".data, fun _ => some [], fun _ => [], fun _ => none, fun _ => []⟩
        [⟨"a".data, false, [1]⟩, ⟨"b".data, false, [2]⟩]
        [⟨"a".data, false, [1]⟩, ⟨"b".data, false, [2]⟩]
      = .ok [("x".data, .bytes [2])] ∧
    ([("x".data, OutContent.bytes [2])] : OutZip).length ≠ 2 ∧
    transcode ⟨fun s => s, fun _ => some [], fun _ => [], fun _ => none, fun _ => []⟩
        [⟨"a.txt".data, false, [1]⟩, ⟨"b/".data, true, []⟩]
        [⟨"a.txt".data, false, [1]⟩]
      = .ok [("b/".data, .dirMarker), ("a.txt".data, .bytes [1])] ∧
    [("b/".data, OutContent.dirMarker), ("a.txt".data, OutContent.bytes [1])].map Prod.fst
      ≠ ["a.txt".data, "b/".data] :=
  ⟨rfl, by decide, rfl, by decide⟩

/-! ### Batch atomicity (C4) and output naming (C6) -/

lemma batchGo_error_of_mem (C : Collab) (inputs : List InputFile) (entOrder : Nat → List ZEntry)
    (i : Nat) (f : InputFile) (msg : Str)
    (hf : inputs[i]? = some f) (herr : processArchive C f (entOrder i) = .error msg) :
    ∀ (sigma : List Nat) (acc : List (Str × Bytes)), i ∈ sigma →
      ∃ m, batchGo C inputs entOrder sigma acc = .error m
  | [], _, hmem => absurd hmem (List.not_mem_nil i)
  | j :: rest, acc, hmem => by
      rcases List.mem_cons.mp hmem with rfl | hrest
      · refine ⟨msg, ?_⟩
        simp only [batchGo, hf, herr]
      · cases hj : inputs[j]? with
        | none =>
            simp only [batchGo, hj]
            exact batchGo_error_of_mem C inputs entOrder i f msg hf herr rest acc hrest
        | some g =>
            cases hg : processArchive C g (entOrder j) with
            | error m => exact ⟨m, by simp only [batchGo, hj, hg]⟩
            | ok p =>
                obtain ⟨n, b⟩ := p
                simp only [batchGo, hj, hg]
                exact batchGo_error_of_mem C inputs entOrder i f msg hf herr rest
                  (upsert acc n b) hrest

/-- C4.  The batch is atomic: when every supplied archive is scheduled
(`sigma` is a permutation of the input indices) and some archive's
processing fails — its container does not parse, or one of its entries
fails to decode or convert — the whole request fails with the (generic)
error response, and the error result carries no outer-bundle bytes: the
route throws past both `generateAsync` calls, so no partial bundle is
produced. -/
theorem c4_batch_atomic (C : Collab) (inputs : List InputFile) (sigma : List Nat)
    (entOrder : Nat → List ZEntry) (i : Nat) (f : InputFile) (msg : Str)
    (hperm : sigma.Perm (List.range inputs.length))
    (hf : inputs[i]? = some f)
    (herr : processArchive C f (entOrder i) = .error msg) :
    POST C inputs sigma entOrder = .error .conversionError := by
  have hlen : i < inputs.length := by
    by_contra hni
    rw [List.getElem?_eq_none (Nat.le_of_not_lt hni)] at hf
    cases hf
  have hmem : i ∈ sigma := hperm.mem_iff.mpr (List.mem_range.mpr hlen)
  obtain ⟨m, hm⟩ :=
    batchGo_error_of_mem C inputs entOrder i f msg hf herr sigma [] hmem
  unfold POST
  rw [if_neg (by omega), hm]

/-- Witness for C4: a batch of one archive whose container does not parse
yields the generic error response. -/
theorem c4_batch_atomic_witness :
    POST ⟨fun s => s, fun _ => some [], fun _ => [], fun _ => none, fun _ => []⟩
        [⟨"a.epub".data, [0]⟩] [0] (fun _ => []) = .error .conversionError :=
  c4_batch_atomic ⟨fun s => s, fun _ => some [], fun _ => [], fun _ => none, fun _ => []⟩
    [⟨"a.epub".data, [0]⟩] [0] (fun _ => []) 0 ⟨"a.epub".data, [0]⟩ "a.epub".data
    (by decide) rfl rfl

/-- C6, amended.  The name of an archive's entry in the outer bundle is
`convertName` of the display name with one case-insensitive `.epub` suffix
stripped, followed by the fixed literal `-converted.epub` — regardless of
the input's original extension. -/
theorem c6_output_naming_amended (C : Collab) (f : InputFile) (readOrder : List ZEntry)
    (p : Str × Bytes) (h : processArchive C f readOrder = .ok p) :
    p.1 = C.conv (stripEpubSuffix f.name) ++ "-converted.epub".data := by
  unfold processArchive at h
  cases hp : C.parseZip f.data with
  | none => simp only [hp] at h; cases h
  | some entries =>
      simp only [hp] at h
      cases ht : transcode C entries readOrder with
      | error e => simp only [ht] at h; cases h
      | ok z =>
          simp only [ht] at h
          cases h
          rfl

/-- Witness for C6: an archive uploaded as `book.zip` (identity conversion,
empty container) is bundled under `book.zip-converted.epub`. -/
theorem c6_output_naming_witness :
    ("book.zip-converted.epub".data, ([] : Bytes)).1 =
      (fun s => s) (stripEpubSuffix "book.zip".data) ++ "-converted.epub".data :=
  c6_output_naming_amended
    ⟨fun s => s, fun _ => some [], fun _ => [], fun _ => some [], fun _ => []⟩
    ⟨"book.zip".data, [0]⟩ [] ("book.zip-converted.epub".data, []) rfl

/-! ### Lemmas about `upsert` and the entry loop -/

lemma contains_iff {α : Type} [BEq α] [LawfulBEq α] {as : List α} {a : α} :
    as.contains a = true ↔ a ∈ as := List.elem_iff

lemma mem_upsert {α : Type} {z : List (Str × α)} {k : Str} {v : α} {q : Str × α}
    (h : q ∈ upsert z k v) : q ∈ z ∨ q = (k, v) := by
  unfold upsert at h
  split at h
  · obtain ⟨p, hp, he⟩ := List.mem_map.mp h
    by_cases hpk : p.1 = k
    · right; rw [← he, if_pos hpk]
    · left; rw [← he, if_neg hpk]; exact hp
  · rcases List.mem_append.mp h with h | h
    · exact .inl h
    · exact .inr (List.mem_singleton.mp h)

lemma upsert_eq_append {α : Type} (z : List (Str × α)) (k : Str) (v : α)
    (hk : k ∉ z.map Prod.fst) : upsert z k v = z ++ [(k, v)] := by
  unfold upsert
  rw [if_neg]
  intro hc
  exact hk (contains_iff.mp hc)

lemma mem_addDirs (C : Collab) :
    ∀ (entries : List ZEntry) (z0 : OutZip) (q : Str × OutContent),
      q ∈ entries.foldl
        (fun z e => if e.isDir then upsert z (forceSlash (C.conv e.path)) .dirMarker else z) z0 →
      q ∈ z0 ∨ q.2 = .dirMarker
  | [], _, _, h => .inl h
  | e :: rest, z0, q, h => by
      rw [List.foldl_cons] at h
      by_cases he : e.isDir
      · rw [if_pos he] at h
        rcases mem_addDirs C rest _ q h with hq | hq
        · rcases mem_upsert hq with h' | h'
          · exact .inl h'
          · right; rw [h']
        · exact .inr hq
      · rw [if_neg he] at h
        exact mem_addDirs C rest z0 q h

lemma classify_binary (path : Str) (h : classify path false = .BinaryPassthrough) :
    targetExtensions.contains (extOf path) = false := by
  by_cases hc : targetExtensions.contains (extOf path) = true
  · unfold classify at h
    rw [if_neg (by simp), if_pos hc] at h
    cases h
  · exact Bool.eq_false_iff.mpr hc

/-- The invariant of the binary round-trip: every bytes-carrying output
entry is some binary input entry's content under its converted name. -/
def BinOut (C : Collab) (entries : List ZEntry) (q : Str × OutContent) : Prop :=
  ∀ b, q.2 = .bytes b →
    ∃ e, e ∈ entries ∧ e.isDir = false ∧ q.1 = C.conv e.path ∧ b = e.content

lemma transcodeFiles_binary (C : Collab) (entries : List ZEntry) :
    ∀ (order : List ZEntry) (z0 : OutZip),
      (∀ e ∈ order, e ∈ entries ∧ e.isDir = false ∧
        targetExtensions.contains (extOf e.path) = false) →
      (∀ q ∈ z0, BinOut C entries q) →
      ∃ z, transcodeFiles C order z0 = .ok z ∧ ∀ q ∈ z, BinOut C entries q
  | [], z0, _, hz0 => ⟨z0, rfl, hz0⟩
  | e :: rest, z0, hord, hz0 => by
      obtain ⟨hmem, hdir, hext⟩ := hord e (List.mem_cons_self e rest)
      have hpf : processFile C e = .ok (C.conv e.path, .bytes e.content) := by
        simp only [processFile]
        rw [hext, if_neg Bool.false_ne_true]
      simp only [transcodeFiles, hpf]
      refine transcodeFiles_binary C entries rest _
        (fun x hx => hord x (List.mem_cons_of_mem e hx)) ?_
      intro q hq b hb
      rcases mem_upsert hq with hq' | hq'
      · exact hz0 q hq' b hb
      · subst hq'
        exact ⟨e, hmem, hdir, rfl, by cases hb; rfl⟩

/-- C5.  Round-trip for binary entries: for an archive all of whose
non-directory entries classify as `BinaryPassthrough`, transcoding always
succeeds and every bytes-carrying output entry's content is byte-identical
to the content of the input entry it came from; only the name changes (to
`convertName` of the original path). -/
theorem c5_binary_roundtrip (C : Collab) (entries readOrder : List ZEntry)
    (hperm : readOrder.Perm (entries.filter fun e => !e.isDir))
    (hbin : ∀ e ∈ entries, e.isDir = false → classify e.path false = .BinaryPassthrough) :
    ∃ z, transcode C entries readOrder = .ok z ∧ ∀ q ∈ z, BinOut C entries q := by
  apply transcodeFiles_binary C entries readOrder (addDirs C entries)
  · intro e he
    have hf := hperm.mem_iff.mp he
    obtain ⟨hmem, hdir⟩ := List.mem_filter.mp hf
    have hdir' : e.isDir = false := by
      cases hd : e.isDir
      · rfl
      · rw [hd] at hdir; cases hdir
    exact ⟨hmem, hdir', classify_binary e.path (hbin e hmem hdir')⟩
  · intro q hq b hb
    rcases mem_addDirs C entries [] q hq with h | h
    · cases h
    · rw [h] at hb; cases hb

/-- Witness for C5: a one-entry archive holding `img.png` with bytes `[9]`
transcodes successfully and satisfies the byte-identity invariant. -/
theorem c5_binary_roundtrip_witness :
    ∃ z, transcode ⟨fun s => s, fun _ => some [], fun _ => [], fun _ => none, fun _ => []⟩
        [⟨"img.png".data, false, [9]⟩] [⟨"img.png".data, false, [9]⟩] = .ok z ∧
      ∀ q ∈ z, BinOut ⟨fun s => s, fun _ => some [], fun _ => [], fun _ => none, fun _ => []⟩
        [⟨"img.png".data, false, [9]⟩] q :=
  c5_binary_roundtrip ⟨fun s => s, fun _ => some [], fun _ => [], fun _ => none, fun _ => []⟩
    [⟨"img.png".data, false, [9]⟩] [⟨"img.png".data, false, [9]⟩]
    (by decide) (by decide)

/-! ### Bundle assembly order (C7) -/

/-- Archive `i`'s bundle entry (name and serialized bytes), read off the
per-archive pipeline; meaningful under the hypothesis that archive `i`
processes successfully. -/
def archOut (C : Collab) (inputs : List InputFile) (entOrder : Nat → List ZEntry)
    (i : Nat) : Str × Bytes :=
  ((processArchive C (inputs.getD i ⟨[], []⟩) (entOrder i)).toOption).getD ([], [])

lemma batchGo_eq (C : Collab) (inputs : List InputFile) (entOrder : Nat → List ZEntry) :
    ∀ (sigma : List Nat) (acc : List (Str × Bytes)),
      (∀ i ∈ sigma, i < inputs.length ∧
        processArchive C (inputs.getD i ⟨[], []⟩) (entOrder i)
          = .ok (archOut C inputs entOrder i)) →
      (acc.map Prod.fst ++ sigma.map fun i => (archOut C inputs entOrder i).1).Nodup →
      batchGo C inputs entOrder sigma acc = .ok (acc ++ sigma.map (archOut C inputs entOrder))
  | [], acc, _, _ => by simp [batchGo]
  | j :: rest, acc, hok, hnd => by
      obtain ⟨hj, hpj⟩ := hok j (List.mem_cons_self j rest)
      have hfj : inputs[j]? = some (inputs.getD j ⟨[], []⟩) := by
        rw [List.getD_eq_getElem?_getD, List.getElem?_eq_getElem hj]
        rfl
      cases hE : archOut C inputs entOrder j with
      | mk n b =>
          rw [hE] at hpj
          rw [List.map_cons, hE] at hnd
          have hkey : n ∉ acc.map Prod.fst := by
            intro hmem
            have hd := (List.nodup_append.mp hnd).2.2
            exact hd hmem (List.mem_cons_self n _)
          simp only [batchGo, hfj, hpj]
          rw [upsert_eq_append acc n b hkey]
          have ih := batchGo_eq C inputs entOrder rest (acc ++ [(n, b)])
            (fun i hi => hok i (List.mem_cons_of_mem j hi)) ?_
          · rw [ih, List.map_cons, hE, List.append_assoc, List.singleton_append]
          · rw [List.map_append]
            simpa [List.append_assoc, hE] using hnd

/-- C7, amended.  Provided every archive processes successfully and the
converted output archive names are pairwise distinct (with a collision —
duplicate display names, or two names the conversion identifies — the
later `outerZip.file` call replaces the earlier entry), the outer bundle
holds one entry per input archive, with deterministic name and bytes, but
the entries are written in archive-completion order `sigma`: the bundle
sequence equals the supply order exactly when the archives complete in
supply order, not regardless of completion order. -/
theorem c7_bundle_order_amended (C : Collab) (inputs : List InputFile) (sigma : List Nat)
    (entOrder : Nat → List ZEntry)
    (hne : inputs ≠ [])
    (hperm : sigma.Perm (List.range inputs.length))
    (hok : ∀ i, i < inputs.length →
      processArchive C (inputs.getD i ⟨[], []⟩) (entOrder i)
        = .ok (archOut C inputs entOrder i))
    (hnd : ((List.range inputs.length).map fun i => (archOut C inputs entOrder i).1).Nodup) :
    POST C inputs sigma entOrder = .ok (sigma.map (archOut C inputs entOrder)) := by
  have hgo := batchGo_eq C inputs entOrder sigma []
    (fun i hi => by
      have hlt := List.mem_range.mp (hperm.mem_iff.mp hi)
      exact ⟨hlt, hok i hlt⟩)
    (by
      rw [List.map_nil, List.nil_append]
      exact ((hperm.map fun i => (archOut C inputs entOrder i).1).nodup_iff).mpr hnd)
  unfold POST
  rw [if_neg (fun h0 => hne (List.length_eq_zero.mp h0)), hgo]
  rw [List.nil_append]

/-- Witness for C7: two archives supplied `[a.epub, b.epub]` completing as
`[1, 0]` produce the bundle in completion order. -/
theorem c7_bundle_order_witness :
    POST ⟨fun s => s, fun _ => some [], fun _ => [], fun _ => some [], fun _ => []⟩
        [⟨"a.epub".data, [0]⟩, ⟨"b.epub".data, [1]⟩] [1, 0] (fun _ => [])
      = .ok ([1, 0].map (archOut
          ⟨fun s => s, fun _ => some [], fun _ => [], fun _ => some [], fun _ => []⟩
          [⟨"a.epub".data, [0]⟩, ⟨"b.epub".data, [1]⟩] (fun _ => []))) :=
  c7_bundle_order_amended
    ⟨fun s => s, fun _ => some [], fun _ => [], fun _ => some [], fun _ => []⟩
    [⟨"a.epub".data, [0]⟩, ⟨"b.epub".data, [1]⟩] [1, 0] (fun _ => [])
    (by decide) (by decide)
    (fun i hi => by
      simp only [List.length_cons, List.length_nil] at hi
      interval_cases i <;> rfl)
    (by decide)

/-! ### Entry count and output order inside one archive (C1) -/

/-- The name an entry receives in the output archive: the converted path,
with JSZip's forced trailing slash for directories. -/
def outNameOf (C : Collab) (e : ZEntry) : Str :=
  if e.isDir then forceSlash (C.conv e.path) else C.conv e.path

/-- The directory entries of the output archive, in enumeration order. -/
def dirPart (C : Collab) (entries : List ZEntry) : OutZip :=
  (entries.filter fun e => e.isDir).map fun e => (forceSlash (C.conv e.path), .dirMarker)

/-- A file entry's output pair; meaningful under the hypothesis that its
processing succeeds. -/
def fileOutOf (C : Collab) (e : ZEntry) : Str × OutContent :=
  ((processFile C e).toOption).getD ([], .dirMarker)

lemma processFile_fst (C : Collab) (e : ZEntry) (p : Str × OutContent)
    (h : processFile C e = .ok p) : p.1 = C.conv e.path := by
  simp only [processFile] at h
  split at h
  · cases hd : C.decode e.content with
    | none => rw [hd] at h; cases h
    | some content => rw [hd] at h; cases h; rfl
  · cases h; rfl

lemma addDirs_aux (C : Collab) :
    ∀ (entries : List ZEntry) (z0 : OutZip),
      (z0.map Prod.fst
        ++ (entries.filter fun e => e.isDir).map fun e => forceSlash (C.conv e.path)).Nodup →
      entries.foldl
          (fun z e => if e.isDir then upsert z (forceSlash (C.conv e.path)) .dirMarker else z) z0
        = z0 ++ dirPart C entries
  | [], z0, _ => by simp [dirPart]
  | e :: rest, z0, hnd => by
      rw [List.foldl_cons]
      by_cases he : e.isDir = true
      · simp only [List.filter_cons, he, if_pos, List.map_cons] at hnd
        have hkey : forceSlash (C.conv e.path) ∉ z0.map Prod.fst := by
          intro hmem
          exact (List.nodup_append.mp hnd).2.2 hmem (List.mem_cons_self _ _)
        have hnd' : ((z0 ++ [(forceSlash (C.conv e.path), OutContent.dirMarker)]).map Prod.fst
            ++ (rest.filter fun e => e.isDir).map fun e => forceSlash (C.conv e.path)).Nodup := by
          rw [List.map_append]
          simpa [List.append_assoc] using hnd
        have ih := addDirs_aux C rest (z0 ++ [(forceSlash (C.conv e.path), .dirMarker)]) hnd'
        rw [if_pos he, upsert_eq_append z0 _ _ hkey, ih]
        simp [dirPart, List.filter_cons, he]
      · simp only [List.filter_cons, he, if_neg, if_false, Bool.false_eq_true] at hnd
        have ih := addDirs_aux C rest z0 hnd
        rw [if_neg he, ih]
        simp [dirPart, List.filter_cons, he]

lemma transcodeFiles_eq (C : Collab) :
    ∀ (order : List ZEntry) (z0 z : OutZip),
      (z0.map Prod.fst ++ order.map fun e => C.conv e.path).Nodup →
      transcodeFiles C order z0 = .ok z →
      z = z0 ++ order.map (fileOutOf C)
  | [], z0, z, _, h => by
      cases h
      simp
  | e :: rest, z0, z, hnd, h => by
      cases hpf : processFile C e with
      | error p =>
          simp only [transcodeFiles, hpf] at h
          cases h
      | ok pr =>
          obtain ⟨n, c⟩ := pr
          have hn : n = C.conv e.path := processFile_fst C e (n, c) hpf
          rw [List.map_cons, ← hn] at hnd
          have hkey : n ∉ z0.map Prod.fst := by
            intro hmem
            exact (List.nodup_append.mp hnd).2.2 hmem (List.mem_cons_self n _)
          simp only [transcodeFiles, hpf] at h
          rw [upsert_eq_append z0 n c hkey] at h
          have hnd' : ((z0 ++ [(n, c)]).map Prod.fst
              ++ rest.map fun e => C.conv e.path).Nodup := by
            rw [List.map_append]
            simpa [List.append_assoc] using hnd
          have ih := transcodeFiles_eq C rest (z0 ++ [(n, c)]) z hnd' h
          have hfo : fileOutOf C e = (n, c) := by
            simp only [fileOutOf, hpf, Except.toOption, Option.getD_some]
          rw [ih, List.map_cons, hfo, List.append_assoc, List.singleton_append]

/-- C1, amended.  Provided the transformed entry names are pairwise
distinct (the conversion does not identify two entry names; with
collisions, later `outputZip.file` calls replace earlier entries) and the
transcoding succeeds, the output archive has exactly K entries for a
K-entry input archive, one per input entry — none dropped or duplicated.
The output order, however, is not the input enumeration order in general:
the directory entries come first, in enumeration order (their `folder`
calls run synchronously before any file read resolves), followed by the
file entries in read-completion order, which coincides with enumeration
order only when the reads complete in enumeration order. -/
theorem c1_entry_count_and_order_amended (C : Collab) (entries readOrder : List ZEntry)
    (z : OutZip)
    (hnd : (entries.map (outNameOf C)).Nodup)
    (hperm : readOrder.Perm (entries.filter fun e => !e.isDir))
    (hok : transcode C entries readOrder = .ok z) :
    z = dirPart C entries ++ readOrder.map (fileOutOf C) ∧ z.length = entries.length := by
  have hdn : ((entries.filter fun e => e.isDir).map fun e => forceSlash (C.conv e.path))
      = (entries.filter fun e => e.isDir).map (outNameOf C) := by
    refine List.map_congr_left fun e he => ?_
    rw [outNameOf, if_pos (List.of_mem_filter he)]
  have hfn : ((entries.filter fun e => !e.isDir).map fun e => C.conv e.path)
      = (entries.filter fun e => !e.isDir).map (outNameOf C) := by
    refine List.map_congr_left fun e he => ?_
    have hd' : e.isDir = false := by
      have hmf := List.of_mem_filter he
      cases hd : e.isDir
      · rfl
      · rw [hd] at hmf; cases hmf
    rw [outNameOf, hd', if_neg Bool.false_ne_true]
  have hsplit : List.Perm
      (((entries.filter fun e => e.isDir).map fun e => forceSlash (C.conv e.path))
        ++ ((entries.filter fun e => !e.isDir).map fun e => C.conv e.path))
      (entries.map (outNameOf C)) := by
    rw [hdn, hfn, ← List.map_append]
    exact (List.filter_append_perm (fun e => e.isDir) entries).map (outNameOf C)
  have hnd2 := (hsplit.nodup_iff).mpr hnd
  have hro : List.Perm (readOrder.map fun e => C.conv e.path)
      ((entries.filter fun e => !e.isDir).map fun e => C.conv e.path) :=
    hperm.map fun e => C.conv e.path
  have hnd3 : (((entries.filter fun e => e.isDir).map fun e => forceSlash (C.conv e.path))
      ++ readOrder.map fun e => C.conv e.path).Nodup :=
    ((hro.append_left _).nodup_iff).mpr hnd2
  have haddD : addDirs C entries = dirPart C entries := by
    rw [addDirs, addDirs_aux C entries [] (by simpa using (List.nodup_append.mp hnd2).1)]
    rw [List.nil_append]
  rw [transcode, haddD] at hok
  have hkeys : (dirPart C entries).map Prod.fst
      = (entries.filter fun e => e.isDir).map fun e => forceSlash (C.conv e.path) := by
    rw [dirPart, List.map_map]
    rfl
  have hz := transcodeFiles_eq C readOrder (dirPart C entries) z (by rw [hkeys]; exact hnd3) hok
  refine ⟨hz, ?_⟩
  rw [hz, List.length_append, List.length_map, dirPart, List.length_map,
    hperm.length_eq, ← List.length_append,
    (List.filter_append_perm (fun e => e.isDir) entries).length_eq]

/-- Witness for C1 (amended): a two-entry archive (`a.txt` then `b/`) with
the identity conversion and the file read completing after the directory's
synchronous `folder` call produces exactly two entries, directory first. -/
theorem c1_amended_witness :
    ([("b/".data, OutContent.dirMarker), ("a.txt".data, OutContent.bytes [1])] : OutZip)
        = dirPart ⟨fun s => s, fun _ => some [], fun _ => [], fun _ => none, fun _ => []⟩
            [⟨"a.txt".data, false, [1]⟩, ⟨"b/".data, true, []⟩]
          ++ [(⟨"a.txt".data, false, [1]⟩ : ZEntry)].map
              (fileOutOf ⟨fun s => s, fun _ => some [], fun _ => [], fun _ => none, fun _ => []⟩)
      ∧ ([("b/".data, OutContent.dirMarker), ("a.txt".data, OutContent.bytes [1])] : OutZip).length
          = ([⟨"a.txt".data, false, [1]⟩, ⟨"b/".data, true, []⟩] : List ZEntry).length :=
  c1_entry_count_and_order_amended
    ⟨fun s => s, fun _ => some [], fun _ => [], fun _ => none, fun _ => []⟩
    [⟨"a.txt".data, false, [1]⟩, ⟨"b/".data, true, []⟩]
    [⟨"a.txt".data, false, [1]⟩]
    [("b/".data, OutContent.dirMarker), ("a.txt".data, OutContent.bytes [1])]
    (by decide) (by decide) rfl

end EpubConvert
